import Mathlib

/-!
Verification of the yang-lint extension core: the brace matcher, the
structural extractor (`parseYang`), the rule engine (`reload` / `validate`),
and the duplicate-deviation quick fix (`buildDeviationFix`).

Text is modelled as `List Char`; indices are `Nat`.  JavaScript regular
expressions used by the source are modelled by hand-written deterministic
matchers that follow the source patterns character class by character class.
-/

namespace YangLint

set_option maxHeartbeats 1000000

/-- Character constants, named to keep literals out of string/char syntax. -/
def lbrace : Char := Char.ofNat 123

def rbrace : Char := Char.ofNat 125

def dquote : Char := Char.ofNat 34

def squote : Char := Char.ofNat 39

def bslash : Char := Char.ofNat 92

/-- Zero-based {line, character} position, as in the source. -/
structure Pos where
  line : Nat
  character : Nat
deriving DecidableEq, Repr

/-- Ordered start/end position pair.  The source field `end` is a Lean
keyword, it is called `stop` here. -/
structure Range where
  start : Pos
  stop : Pos
deriving DecidableEq, Repr

/-- Source `idxToPos`: `text.slice(0, idx).split('\n')`, line is the number
of pieces minus one (= newline count), character is the last piece's
length. -/
def idxToPos (t : List Char) (idx : Nat) : Pos :=
  let pre := t.take idx
  { line := pre.count '\n'
    character := (pre.reverse.takeWhile (fun c => c ≠ '\n')).length }

/-- The 5-state scanner automaton `enum S` of the source. -/
inductive ScanState where
  | CODE
  | LINE_COMMENT
  | BLOCK_COMMENT
  | DQ_STRING
  | SQ_STRING
deriving DecidableEq, Repr

open ScanState

/-- The loop body of source `findMatchingBrace`: state `state`, depth
`depth`, scanning from index `i`.  The source decrements `depth` on a
code-state close brace and returns the index when it reaches 0; `depth` is
always ≥ 1 here, so the test `--depth === 0` is `depth = 1`. -/
def fmbGo (t : List Char) (fuel : Nat) (state : ScanState) (depth : Nat) (i : Nat) : Nat :=
  match fuel with
  | 0 => t.length - 1
  | fuel + 1 =>
    if _h : i < t.length then
      let ch := t[i]
      let nxt := t[i+1]?
      match state with
      | CODE =>
        if ch = lbrace then fmbGo t fuel CODE (depth+1) (i+1)
        else if ch = rbrace then
          (if depth = 1 then i else fmbGo t fuel CODE (depth-1) (i+1))
        else if ch = '/' ∧ nxt = some '/' then fmbGo t fuel LINE_COMMENT depth (i+2)
        else if ch = '/' ∧ nxt = some '*' then fmbGo t fuel BLOCK_COMMENT depth (i+2)
        else if ch = dquote then fmbGo t fuel DQ_STRING depth (i+1)
        else if ch = squote then fmbGo t fuel SQ_STRING depth (i+1)
        else fmbGo t fuel CODE depth (i+1)
      | LINE_COMMENT =>
        if ch = '\n' then fmbGo t fuel CODE depth (i+1)
        else fmbGo t fuel LINE_COMMENT depth (i+1)
      | BLOCK_COMMENT =>
        if ch = '*' ∧ nxt = some '/' then fmbGo t fuel CODE depth (i+2)
        else fmbGo t fuel BLOCK_COMMENT depth (i+1)
      | DQ_STRING =>
        if ch = dquote ∧ t[i-1]? ≠ some bslash then fmbGo t fuel CODE depth (i+1)
        else fmbGo t fuel DQ_STRING depth (i+1)
      | SQ_STRING =>
        if ch = squote ∧ t[i-1]? ≠ some bslash then fmbGo t fuel CODE depth (i+1)
        else fmbGo t fuel SQ_STRING depth (i+1)
    else t.length - 1

/-- Source `findMatchingBrace(text, openIdx)`: scan starts one past the
opening brace in state CODE with depth 1. -/
def findMatchingBrace (t : List Char) (openIdx : Nat) : Nat :=
  fmbGo t t.length CODE 1 (openIdx + 1)

/-- Reference tokenizer: the sequence of depth-affecting braces.  It walks
the same automaton as `fmbGo` but, instead of counting, records each brace
seen in CODE state as `(index, isOpen)`.  Braces inside line comments,
block comments, and quoted strings produce no event. -/
def braceEvents (t : List Char) (fuel : Nat) (state : ScanState) (i : Nat) : List (Nat × Bool) :=
  match fuel with
  | 0 => []
  | fuel + 1 =>
    if _h : i < t.length then
      let ch := t[i]
      let nxt := t[i+1]?
      match state with
      | CODE =>
        if ch = lbrace then (i, true) :: braceEvents t fuel CODE (i+1)
        else if ch = rbrace then (i, false) :: braceEvents t fuel CODE (i+1)
        else if ch = '/' ∧ nxt = some '/' then braceEvents t fuel LINE_COMMENT (i+2)
        else if ch = '/' ∧ nxt = some '*' then braceEvents t fuel BLOCK_COMMENT (i+2)
        else if ch = dquote then braceEvents t fuel DQ_STRING (i+1)
        else if ch = squote then braceEvents t fuel SQ_STRING (i+1)
        else braceEvents t fuel CODE (i+1)
      | LINE_COMMENT =>
        if ch = '\n' then braceEvents t fuel CODE (i+1)
        else braceEvents t fuel LINE_COMMENT (i+1)
      | BLOCK_COMMENT =>
        if ch = '*' ∧ nxt = some '/' then braceEvents t fuel CODE (i+2)
        else braceEvents t fuel BLOCK_COMMENT (i+1)
      | DQ_STRING =>
        if ch = dquote ∧ t[i-1]? ≠ some bslash then braceEvents t fuel CODE (i+1)
        else braceEvents t fuel DQ_STRING (i+1)
      | SQ_STRING =>
        if ch = squote ∧ t[i-1]? ≠ some bslash then braceEvents t fuel CODE (i+1)
        else braceEvents t fuel SQ_STRING (i+1)
    else []

/-- Declarative matching-brace index: walk the brace events with a depth
counter; the matching close of a brace opened at depth `d` is the first
close event that brings the depth to 0.  `none` means the brace is never
closed (unbalanced). -/
def matchIndex : List (Nat × Bool) → Nat → Option Nat
  | [], _ => none
  | (_, true) :: rest, d => matchIndex rest (d+1)
  | (j, false) :: rest, d => if d = 1 then some j else matchIndex rest (d-1)

/-- The search loop equals the declarative first-hit over the brace-event
stream, defaulting to `t.length - 1` when no close matches. -/
theorem fmbGo_eq_matchIndex (t : List Char) :
    ∀ (fuel : Nat) (state : ScanState) (i depth : Nat),
      fmbGo t fuel state depth i =
        (matchIndex (braceEvents t fuel state i) depth).getD (t.length - 1)
  | 0, state, i, depth => by
      simp [fmbGo, braceEvents, matchIndex]
  | (fuel+1), state, i, depth => by
      have ih : ∀ s j d, fmbGo t fuel s d j =
          (matchIndex (braceEvents t fuel s j) d).getD (t.length - 1) :=
        fun s j d => fmbGo_eq_matchIndex t fuel s j d
      rw [fmbGo, braceEvents]
      by_cases hlt : i < t.length
      · simp only [dif_pos hlt]
        cases state
        · dsimp only
          split_ifs with h1 h2 hd h3 h4 h5 h6
          · simp only [matchIndex]; exact ih _ _ _
          · simp [matchIndex, hd]
          · simp only [matchIndex, if_neg hd]; exact ih _ _ _
          · exact ih _ _ _
          · exact ih _ _ _
          · exact ih _ _ _
          · exact ih _ _ _
          · exact ih _ _ _
        · dsimp only
          split_ifs with h1
          · exact ih _ _ _
          · exact ih _ _ _
        · dsimp only
          split_ifs with h1
          · exact ih _ _ _
          · exact ih _ _ _
        · dsimp only
          split_ifs with h1
          · exact ih _ _ _
          · exact ih _ _ _
        · dsimp only
          split_ifs with h1
          · exact ih _ _ _
          · exact ih _ _ _
      · simp [hlt, matchIndex]

/-- Text `{ a "}" b }` (braces written as escapes). -/
def exQuoted : List Char := "\x7b a \"\x7d\" b \x7d".toList

/-- Text `{ x }`. -/
def exSmall : List Char := "\x7b x \x7d".toList

/-- Text `{ a { }` — the inner pair is balanced, the outer brace is never
closed. -/
def exUnterm : List Char := "\x7b a \x7b \x7d".toList

/-- Text `{ ab` — unterminated. -/
def exUnterm2 : List Char := "\x7b ab".toList

/-- C5: for every text and opening-brace index whose brace is balanced
(the code-state brace events after it reach depth 0, at the event index
`j`), `findMatchingBrace` returns exactly `j`; code-state tracking makes
braces inside comments and strings produce no event at all, so they cannot
affect the depth count.  For `{ a "}" b }` the event stream from index 1
contains only the final close at index 10 — the quoted `}` at index 5 is
ignored — and the function returns 10. -/
theorem c5_matchBrace_balanced_exact :
    (∀ (t : List Char) (openIdx j : Nat),
        t[openIdx]? = some lbrace →
        matchIndex (braceEvents t t.length CODE (openIdx + 1)) 1 = some j →
        findMatchingBrace t openIdx = j) ∧
    braceEvents exQuoted exQuoted.length CODE 1 = [(10, false)] ∧
    findMatchingBrace exQuoted 0 = 10 := by
  refine ⟨fun t openIdx j _ hb => ?_, by rfl, by rfl⟩
  rw [findMatchingBrace, fmbGo_eq_matchIndex t t.length CODE (openIdx + 1) 1, hb]
  rfl

/-- C5 witness: the general part of C5 applied to the concrete text
`{ x }`, whose matching close sits at index 4. -/
theorem c5_matchBrace_balanced_exact_witness :
    exSmall[0]? = some lbrace ∧
    matchIndex (braceEvents exSmall exSmall.length CODE 1) 1 = some 4 ∧
    findMatchingBrace exSmall 0 = 4 :=
  ⟨by rfl, by rfl, c5_matchBrace_balanced_exact.1 exSmall 0 4 (by rfl) (by rfl)⟩

/-- C6: for every text and opening-brace index whose brace is never closed
(no code-state close event balances it), `findMatchingBrace` returns the
last index of the text, `t.length - 1`, rather than failing.  For the
unterminated `{ a { }` it returns index 6. -/
theorem c6_matchBrace_unterminated_lastIndex :
    (∀ (t : List Char) (openIdx : Nat),
        matchIndex (braceEvents t t.length CODE (openIdx + 1)) 1 = none →
        findMatchingBrace t openIdx = t.length - 1) ∧
    findMatchingBrace exUnterm 0 = 6 ∧ exUnterm.length - 1 = 6 := by
  refine ⟨fun t openIdx hb => ?_, by rfl, by rfl⟩
  rw [findMatchingBrace, fmbGo_eq_matchIndex t t.length CODE (openIdx + 1) 1, hb]
  rfl

/-- C6 witness: the general part of C6 applied to the unterminated text
`{ ab` of length 4: the function returns 3. -/
theorem c6_matchBrace_unterminated_lastIndex_witness :
    matchIndex (braceEvents exUnterm2 exUnterm2.length CODE 1) 1 = none ∧
    findMatchingBrace exUnterm2 0 = exUnterm2.length - 1 :=
  ⟨by rfl, c6_matchBrace_unterminated_lastIndex.1 exUnterm2 0 (by rfl)⟩

/-! ### Regex-scanner machinery

The anchored source patterns are deterministic (no alternative ever
backtracks into a different parse), so each is modelled by a hand-rolled
matcher built from `skipWhile` (greedy character-class repetition) and
`matchLit` (literal).  `searchFrom` reproduces multiline-`exec`: the
leftmost match at a line start at or after the current position;
`scanAll` reproduces the `g`-flag loop that resumes at `lastIndex`.
All loops carry fuel; callers pass fuel that provably exceeds the scan
length, so the fuel-0 branches are unreachable. -/

/-- JS `[ \t]`. -/
def isSpaceTab (c : Char) : Bool := c = ' ' || c = '\t'

/-- JS `[A-Za-z0-9._-]` (also `[0-9A-Za-z._-]`). -/
def isNameChar (c : Char) : Bool :=
  c.isAlpha || c.isDigit || c = '.' || c = '_' || c = '-'

/-- JS `\w` = `[A-Za-z0-9_]`. -/
def isWordChar (c : Char) : Bool := c.isAlpha || c.isDigit || c = '_'

/-- JS `\s` (ASCII part: space, tab, newline, carriage return, vertical
tab, form feed). -/
def isJsWs (c : Char) : Bool :=
  c = ' ' || c = '\t' || c = '\n' || c = '\r' || c = Char.ofNat 11 || c = Char.ofNat 12

/-- `text.slice(a, b)` for non-negative bounds. -/
def sliceIdx (t : List Char) (a b : Nat) : List Char := (t.drop a).take (b - a)

/-- Greedy character-class repetition: first index ≥ `i` whose character
fails `p` (or end of text). -/
def skipWhile (t : List Char) (p : Char → Bool) : Nat → Nat → Nat
  | 0, i => i
  | fuel + 1, i =>
    if h : i < t.length then
      (if p t[i] then skipWhile t p fuel (i+1) else i)
    else i

/-- Literal match: `some` of the index one past the literal when `t`
carries `lit` at `i`. -/
def matchLit (t : List Char) : List Char → Nat → Option Nat
  | [], i => some i
  | c :: cs, i => if t[i]? = some c then matchLit t cs (i+1) else none

/-- First index ≥ `i` holding character `c`; `t.length` when there is
none (the source's `indexOf` returns -1 then, but every call site has
already ensured the character occurs). -/
def indexOfFrom (t : List Char) (c : Char) : Nat → Nat → Nat
  | 0, _ => t.length
  | fuel + 1, i =>
    if h : i < t.length then
      (if t[i] = c then i else indexOfFrom t c fuel (i+1))
    else t.length

/-- Multiline anchored `exec`: leftmost position ≥ `p` that starts a line
(start of text or right after a newline) and where the matcher succeeds.
Returns (match index, payload, match end). -/
def searchFrom (t : List Char) (m : Nat → Option (α × Nat)) : Nat → Nat → Option (Nat × α × Nat)
  | 0, _ => none
  | fuel + 1, i =>
    if i < t.length then
      if i = 0 ∨ t[i-1]? = some '\n' then
        match m i with
        | some (a, e) => some (i, a, e)
        | none => searchFrom t m fuel (i+1)
      else searchFrom t m fuel (i+1)
    else none

/-- Unanchored `exec`: leftmost position ≥ `p` where the matcher
succeeds (no line-start requirement). -/
def searchAnywhere (t : List Char) (m : Nat → Option (α × Nat)) : Nat → Nat → Option (Nat × α × Nat)
  | 0, _ => none
  | fuel + 1, i =>
    if i < t.length then
      match m i with
      | some (a, e) => some (i, a, e)
      | none => searchAnywhere t m fuel (i+1)
    else none

/-- `g`-flag loop over a line-anchored pattern: find, resume at the match
end (`lastIndex`), repeat. -/
def scanAll (t : List Char) (m : Nat → Option (α × Nat)) : Nat → Nat → List (Nat × α × Nat)
  | 0, _ => []
  | fuel + 1, p =>
    match searchFrom t m t.length p with
    | none => []
    | some (idx, a, e) => (idx, a, e) :: scanAll t m fuel e

/-- `g`-flag loop over an unanchored pattern. -/
def scanAllAnywhere (t : List Char) (m : Nat → Option (α × Nat)) : Nat → Nat → List (Nat × α × Nat)
  | 0, _ => []
  | fuel + 1, p =>
    match searchAnywhere t m t.length p with
    | none => []
    | some (idx, a, e) => (idx, a, e) :: scanAllAnywhere t m fuel e

/-- `split('\n')` pieces re-joined after `slice(0, n)`: the source's
"first `n` lines" idiom. -/
def firstLines (l : List Char) (n : Nat) : List Char :=
  ((l.splitOn '\n').take n |>.intersperse ['\n']).flatten

/-! ### Node types (from the `node types` section of the parser) -/

/-- Module header; the source field `namespace` is a Lean keyword, called
`ns` here.  `moduleName` is always assigned on construction. -/
structure ModuleHeader where
  moduleName : List Char
  ns : Option (List Char)
  range : Range
  rawLine : List Char
deriving DecidableEq, Repr

structure ImportNode where
  name : List Char
  range : Range
  rawLine : List Char
deriving DecidableEq, Repr

structure TypedefNode where
  name : List Char
  range : Range
  rawLine : List Char
  afterLines : List Char
deriving DecidableEq, Repr

inductive StatusValue where
  | current
  | deprecated
  | obsolete
deriving DecidableEq, Repr

structure StatusNode where
  value : StatusValue
  range : Range
  rawLine : List Char
  afterLines : List Char
deriving DecidableEq, Repr

structure ListNode where
  line : Nat
  range : Range
  key : List (List Char)
  children : List (List Char)
  afterLines : List Char
deriving DecidableEq, Repr

structure BlockNode where
  keyword : List Char
  name : List Char
  range : Range
  rawLine : List Char
  afterLines : List Char
deriving DecidableEq, Repr

structure DeviationNode where
  target : List Char
  range : Range
  duplicate : Bool
deriving DecidableEq, Repr

structure ConstraintNode where
  keyword : List Char
  name : List Char
  range : Range
  hasMust : Bool
  hasWhen : Bool
  hasDesc : Bool
deriving DecidableEq, Repr

/-- The Ast bag; absent categories are `none`, never empty lists. -/
structure Ast where
  moduleHeader : Option ModuleHeader := none
  imports : Option (List ImportNode) := none
  typedefs : Option (List TypedefNode) := none
  statuses : Option (List StatusNode) := none
  lists : Option (List ListNode) := none
  blocks : Option (List BlockNode) := none
  deviations : Option (List DeviationNode) := none
  constraintNodes : Option (List ConstraintNode) := none
deriving DecidableEq, Repr

/-- `xs.length ? xs : undefined` of the source's return statement. -/
def optList (l : List α) : Option (List α) :=
  if l.isEmpty then none else some l

/-! ### Per-category matchers

Each models one source regex.  All the source patterns are deterministic:
every repetition's character class is disjoint from what legally follows
it, so greedy maximal munch is exact and no backtracking case is lost. -/

/-- `MODULE_RE = ^[ \t]*module[ \t]+([A-Za-z0-9._-]+)[^\n]*$` (payload:
captured name). -/
def matchModuleAt (t : List Char) (i : Nat) : Option (List Char × Nat) :=
  let j := skipWhile t isSpaceTab t.length i
  match matchLit t "module".toList j with
  | none => none
  | some k =>
    let k2 := skipWhile t isSpaceTab t.length k
    if k2 = k then none
    else
      let m := skipWhile t isNameChar t.length k2
      if m = k2 then none
      else some (sliceIdx t k2 m, skipWhile t (fun c => c ≠ '\n') t.length m)

/-- `NS_RE = ^[ \t]*namespace[ \t]+"([^"]+)"[^\n]*$` (payload: captured
quoted value). -/
def matchNamespaceAt (t : List Char) (i : Nat) : Option (List Char × Nat) :=
  let j := skipWhile t isSpaceTab t.length i
  match matchLit t "namespace".toList j with
  | none => none
  | some k =>
    let k2 := skipWhile t isSpaceTab t.length k
    if k2 = k then none
    else if t[k2]? = some dquote then
      let m := skipWhile t (fun c => c ≠ dquote) t.length (k2+1)
      if m = k2 + 1 then none
      else if t[m]? = some dquote then
        some (sliceIdx t (k2+1) m, skipWhile t (fun c => c ≠ '\n') t.length (m+1))
      else none
    else none

/-- `IMPORT_RE = ^[ \t]*import[ \t]+([0-9A-Za-z._-]+)[^\n]*$` (payload:
name and whole-match raw line). -/
def matchImportAt (t : List Char) (i : Nat) : Option ((List Char × List Char) × Nat) :=
  let j := skipWhile t isSpaceTab t.length i
  match matchLit t "import".toList j with
  | none => none
  | some k =>
    let k2 := skipWhile t isSpaceTab t.length k
    if k2 = k then none
    else
      let m := skipWhile t isNameChar t.length k2
      if m = k2 then none
      else
        let e := skipWhile t (fun c => c ≠ '\n') t.length m
        some ((sliceIdx t k2 m, sliceIdx t i e), e)

/-- `STATUS_RE = ^[ \t]*status[ \t]+(current|deprecated|obsolete)[^\n]*$`. -/
def matchStatusAt (t : List Char) (i : Nat) : Option (StatusValue × Nat) :=
  let j := skipWhile t isSpaceTab t.length i
  match matchLit t "status".toList j with
  | none => none
  | some k =>
    let k2 := skipWhile t isSpaceTab t.length k
    if k2 = k then none
    else
      let fin := fun m => skipWhile t (fun c => c ≠ '\n') t.length m
      match matchLit t "current".toList k2 with
      | some m => some (StatusValue.current, fin m)
      | none =>
        match matchLit t "deprecated".toList k2 with
        | some m => some (StatusValue.deprecated, fin m)
        | none =>
          match matchLit t "obsolete".toList k2 with
          | some m => some (StatusValue.obsolete, fin m)
          | none => none

/-- `TYPEDEF_START_RE = ^[ \t]*typedef[ \t]+([A-Za-z0-9._-]+)[ \t]*{`. -/
def matchTypedefAt (t : List Char) (i : Nat) : Option (List Char × Nat) :=
  let j := skipWhile t isSpaceTab t.length i
  match matchLit t "typedef".toList j with
  | none => none
  | some k =>
    let k2 := skipWhile t isSpaceTab t.length k
    if k2 = k then none
    else
      let m := skipWhile t isNameChar t.length k2
      if m = k2 then none
      else
        let m2 := skipWhile t isSpaceTab t.length m
        if t[m2]? = some lbrace then some (sliceIdx t k2 m, m2 + 1) else none

/-- `LIST_START_RE = ^[ \t]*list[ \t]+(\w+)[ \t]*{` (the captured name is
never used by the source). -/
def matchListAt (t : List Char) (i : Nat) : Option (Unit × Nat) :=
  let j := skipWhile t isSpaceTab t.length i
  match matchLit t "list".toList j with
  | none => none
  | some k =>
    let k2 := skipWhile t isSpaceTab t.length k
    if k2 = k then none
    else
      let m := skipWhile t isWordChar t.length k2
      if m = k2 then none
      else
        let m2 := skipWhile t isSpaceTab t.length m
        if t[m2]? = some lbrace then some ((), m2 + 1) else none

/-- `DEVIATION_START_RE = ^[ \t]*deviation[ \t]+([^ \t{]+)[ \t]*{`. -/
def matchDeviationAt (t : List Char) (i : Nat) : Option (List Char × Nat) :=
  let j := skipWhile t isSpaceTab t.length i
  match matchLit t "deviation".toList j with
  | none => none
  | some k =>
    let k2 := skipWhile t isSpaceTab t.length k
    if k2 = k then none
    else
      let m := skipWhile t (fun c => !(isSpaceTab c || c = lbrace)) t.length k2
      if m = k2 then none
      else
        let m2 := skipWhile t isSpaceTab t.length m
        if t[m2]? = some lbrace then some (sliceIdx t k2 m, m2 + 1) else none

/-- Shared tail of `DESC_BLOCK_RE` and `CONSTRAINT_START_RE`:
`[ \t]+(\w+)[^\n]*{` after a keyword.  `[^\n]*` is greedy, so the match
ends at the last `{` of the line (payload: name, end one past it). -/
def matchKwTail (t : List Char) (k : Nat) : Option (List Char × Nat) :=
  let k2 := skipWhile t isSpaceTab t.length k
  if k2 = k then none
  else
    let m := skipWhile t isWordChar t.length k2
    if m = k2 then none
    else
      let nl := skipWhile t (fun c => c ≠ '\n') t.length m
      let seg := sliceIdx t m nl
      match seg.reverse.findIdx? (fun c => c = lbrace) with
      | none => none
      | some rj => some (sliceIdx t k2 m, (m + (seg.length - 1 - rj)) + 1)

/-- Keyword alternation followed by `matchKwTail`; alternatives are tried
left to right, as a backtracking regex engine does (payload: keyword,
name, end). -/
def matchKwBlockAt (t : List Char) (kws : List (List Char)) (i : Nat) :
    Option ((List Char × List Char) × Nat) :=
  let j := skipWhile t isSpaceTab t.length i
  match kws with
  | [] => none
  | kw :: rest =>
    match matchLit t kw j with
    | some k =>
      match matchKwTail t k with
      | some (nm, e) => some ((kw, nm), e)
      | none => matchKwBlockAt t rest i
    | none => matchKwBlockAt t rest i

/-- `DESC_BLOCK_RE` keyword alternation, in source order. -/
def blockKeywords : List (List Char) :=
  ["anyxml", "augment", "choice", "container", "extension", "feature",
   "notification", "rpc"].map String.toList

/-- `CONSTRAINT_START_RE` keyword alternation, in source order
(`leaf-list` before `leaf`). -/
def constraintKeywords : List (List Char) :=
  ["container", "list", "leaf-list", "leaf", "choice", "case", "anyxml",
   "anydata", "grouping", "uses", "typedef", "augment"].map String.toList

/-- `KEY_RE = key[ \t]+"([^"]+)"`, unanchored (payload: quoted group). -/
def matchKeyAt (t : List Char) (i : Nat) : Option (List Char × Nat) :=
  match matchLit t "key".toList i with
  | none => none
  | some k =>
    let k2 := skipWhile t isSpaceTab t.length k
    if k2 = k then none
    else if t[k2]? = some dquote then
      let m := skipWhile t (fun c => c ≠ dquote) t.length (k2+1)
      if m = k2 + 1 then none
      else if t[m]? = some dquote then some (sliceIdx t (k2+1) m, m + 1)
      else none
    else none

/-- `LEAF_RE = leaf[ \t]+(\w+)`, unanchored, global (payload: name). -/
def matchLeafAt (t : List Char) (i : Nat) : Option (List Char × Nat) :=
  match matchLit t "leaf".toList i with
  | none => none
  | some k =>
    let k2 := skipWhile t isSpaceTab t.length k
    if k2 = k then none
    else
      let m := skipWhile t isWordChar t.length k2
      if m = k2 then none else some (sliceIdx t k2 m, m)

/-! ### parse (the source `parseYang`) -/

/-- JS `String.prototype.trim` (ASCII whitespace). -/
def jsTrim (s : List Char) : List Char :=
  ((s.dropWhile isJsWs).reverse.dropWhile isJsWs).reverse

/-- Maximal non-whitespace words of a whitespace-trimmed string. -/
def wsWords : List Char → List (List Char)
  | [] => []
  | c :: cs =>
    if isJsWs c then wsWords (cs.dropWhile isJsWs)
    else
      let w := (c :: cs).takeWhile (fun x => !isJsWs x)
      w :: wsWords ((c :: cs).dropWhile (fun x => !isJsWs x))
  termination_by l => l.length
  decreasing_by
    all_goals simp only [List.length_cons]
    · have h0 : (cs.dropWhile isJsWs).length ≤ cs.length :=
        (List.dropWhile_sublist isJsWs).length_le
      omega
    · rename_i hc
      have hb : isJsWs c = false := by simpa using hc
      rw [List.dropWhile_cons]
      simp only [hb, Bool.not_false, if_true]
      have h0 : (cs.dropWhile (fun x => !isJsWs x)).length ≤ cs.length :=
        (List.dropWhile_sublist (fun x => !isJsWs x)).length_le
      omega

/-- JS `s.split(/\s+/)` after `trim`: the empty string yields `[""]`,
otherwise the whitespace-separated words. -/
def jsSplitWsTrimmed (s : List Char) : List (List Char) :=
  if s = [] then [[]] else wsWords s

/-- Source module-header extraction: first `MODULE_RE` match; `NS_RE` is
matched independently (also from the start of the text). -/
def parseModuleHeader (t : List Char) : Option ModuleHeader :=
  match searchFrom t (matchModuleAt t) t.length 0 with
  | none => none
  | some (idx, nm, e) =>
    some { moduleName := nm
           ns := (searchFrom t (matchNamespaceAt t) t.length 0).map (fun r => r.2.1)
           rawLine := sliceIdx t idx e
           range := { start := idxToPos t idx, stop := idxToPos t e } }

/-- Source imports loop. -/
def scanImports (t : List Char) : List ImportNode :=
  (scanAll t (matchImportAt t) (t.length + 1) 0).map fun r =>
    { name := r.2.1.1, rawLine := r.2.1.2
      range := { start := idxToPos t r.1, stop := idxToPos t r.2.2 } }

/-- Source typedefs loop: brace-delimited body from the first `{` after
the match start. -/
def scanTypedefs (t : List Char) : List TypedefNode :=
  (scanAll t (matchTypedefAt t) (t.length + 1) 0).map fun r =>
    let openI := indexOfFrom t lbrace t.length r.1
    let close := findMatchingBrace t openI
    let body := sliceIdx t (openI + 1) close
    { name := r.2.1, rawLine := sliceIdx t r.1 r.2.2
      afterLines := firstLines body 10
      range := { start := idxToPos t r.1, stop := idxToPos t (close + 1) } }

/-- Source statuses loop: `afterLines` is the first 10 lines following
the match end. -/
def scanStatuses (t : List Char) : List StatusNode :=
  (scanAll t (matchStatusAt t) (t.length + 1) 0).map fun r =>
    { value := r.2.1, rawLine := sliceIdx t r.1 r.2.2
      afterLines := firstLines (t.drop r.2.2) 10
      range := { start := idxToPos t r.1, stop := idxToPos t r.2.2 } }

/-- Source lists loop: key names from the first `KEY_RE` match inside the
body, child names from all `LEAF_RE` matches inside the body. -/
def scanLists (t : List Char) : List ListNode :=
  (scanAll t (matchListAt t) (t.length + 1) 0).map fun r =>
    let openI := indexOfFrom t lbrace t.length r.1
    let close := findMatchingBrace t openI
    let body := sliceIdx t (openI + 1) close
    let keys :=
      match searchAnywhere body (matchKeyAt body) body.length 0 with
      | some kr => jsSplitWsTrimmed (jsTrim kr.2.1)
      | none => []
    let children :=
      (scanAllAnywhere body (matchLeafAt body) (body.length + 1) 0).map (fun lr => lr.2.1)
    { line := (idxToPos t r.1).line
      range := { start := idxToPos t r.1, stop := idxToPos t (close + 1) }
      key := keys, children := children
      afterLines := firstLines body 10 }

/-- Raw deviation scan, in document order, `duplicate` still false. -/
def scanDeviations (t : List Char) : List DeviationNode :=
  (scanAll t (matchDeviationAt t) (t.length + 1) 0).map fun r =>
    let openI := indexOfFrom t lbrace t.length r.1
    let close := findMatchingBrace t openI
    { target := r.2.1
      range := { start := idxToPos t r.1, stop := idxToPos t (close + 1) }
      duplicate := false }

/-- JS `Map.get(k) || []` over an insertion-ordered association list. -/
def mapGetList (m : List (List Char × List α)) (k : List Char) : List α :=
  match m with
  | [] => []
  | (k2, a) :: rest => if k2 = k then a else mapGetList rest k

/-- JS `map.set(k, map.get(k)||[] ++ [n])`: push onto the existing entry
in place, or append a new entry at the end. -/
def mapPush (m : List (List Char × List α)) (k : List Char) (n : α) :
    List (List Char × List α) :=
  match m with
  | [] => [(k, [n])]
  | (k2, a) :: rest =>
    if k2 = k then (k2, a ++ [n]) :: rest else (k2, a) :: mapPush rest k n

/-- The source's grouping pass: bucket the raw nodes by target. -/
def buildDevGroups (l : List DeviationNode) : List (List Char × List DeviationNode) :=
  l.foldl (fun m n => mapPush m n.target n) []

/-- The source's duplicate-marking pass: for groups with more than one
member, every member after the first gets `duplicate := true`. -/
def markDup (arr : List DeviationNode) : List DeviationNode :=
  if 1 < arr.length then
    match arr with
    | [] => []
    | a :: rest => a :: rest.map (fun n => { n with duplicate := true })
  else arr

/-- Deviations as `parseYang` returns them: grouped by target (insertion
order), duplicates marked, flattened. -/
def parseDeviations (t : List Char) : List DeviationNode :=
  ((buildDevGroups (scanDeviations t)).map (fun kv => markDup kv.2)).flatten

/-- Source description-block loop. -/
def scanBlocks (t : List Char) : List BlockNode :=
  (scanAll t (matchKwBlockAt t blockKeywords) (t.length + 1) 0).map fun r =>
    let openI := indexOfFrom t lbrace t.length r.1
    let close := findMatchingBrace t openI
    let body := sliceIdx t (openI + 1) close
    { keyword := r.2.1.1, name := r.2.1.2, rawLine := sliceIdx t r.1 r.2.2
      afterLines := firstLines body 10
      range := { start := idxToPos t r.1, stop := idxToPos t (close + 1) } }

/-- `/[\s\n]kw[\s\n]/.test(body)`: some occurrence of `kw` with a
whitespace character on both sides. -/
def hasWsKwWs (body : List Char) (kw : List Char) : Bool :=
  (List.range body.length).any fun i =>
    (match body[i]? with
     | some c => isJsWs c
     | none => false) &&
    (match matchLit body kw (i+1) with
     | some j =>
       match body[j]? with
       | some c2 => isJsWs c2
       | none => false
     | none => false)

/-- Source constraint-node loop. -/
def scanConstraints (t : List Char) : List ConstraintNode :=
  (scanAll t (matchKwBlockAt t constraintKeywords) (t.length + 1) 0).map fun r =>
    let openI := indexOfFrom t lbrace t.length r.1
    let close := findMatchingBrace t openI
    let body := sliceIdx t (openI + 1) close
    { keyword := r.2.1.1, name := r.2.1.2
      range := { start := idxToPos t r.1, stop := idxToPos t (close + 1) }
      hasMust := hasWsKwWs body "must".toList
      hasWhen := hasWsKwWs body "when".toList
      hasDesc := hasWsKwWs body "description".toList }

/-- Source `parseYang`. -/
def parseYang (t : List Char) : Ast :=
  { moduleHeader := parseModuleHeader t
    imports := optList (scanImports t)
    typedefs := optList (scanTypedefs t)
    statuses := optList (scanStatuses t)
    lists := optList (scanLists t)
    blocks := optList (scanBlocks t)
    deviations := optList (parseDeviations t)
    constraintNodes := optList (scanConstraints t) }

/-! ### C4: the one-line module/namespace example -/

/-- The claim's input `module foo { namespace "urn:x"; }` — a single
line. -/
def c4text : List Char := "module foo \x7b namespace \"urn:x\"; \x7d".toList

/-- The same statements with the namespace statement on its own line. -/
def c4textMultiline : List Char :=
  "module foo \x7b\n  namespace \"urn:x\";\n\x7d".toList

/-- C4 counterexample: on `module foo { namespace "urn:x"; }` the parsed
header has moduleName "foo" but NO namespace: `NS_RE` is anchored at a
line start (`^[ \t]*namespace…` with the `m` flag) and the only line of
this text starts with `module`, so the namespace match fails and the
header's namespace field is undefined — not "urn:x" as claimed. -/
theorem c4_counterexample :
    (parseYang c4text).moduleHeader.map (fun h => (h.moduleName, h.ns)) =
      some ("foo".toList, none) ∧
    ¬ ((parseYang c4text).moduleHeader.map (fun h => (h.moduleName, h.ns)) =
      some ("foo".toList, some "urn:x".toList)) := by
  constructor
  · rfl
  · intro h
    simp only [show (parseYang c4text).moduleHeader.map
      (fun h => (h.moduleName, h.ns)) = some ("foo".toList, none) from rfl] at h
    simp at h

/-- C4 (amended): parsing `module foo { namespace "urn:x"; }` yields a
ModuleHeader with moduleName "foo" and no namespace; when the namespace
statement starts its own line (`module foo {` / `  namespace "urn:x";` /
`}`), the header carries moduleName "foo" and namespace "urn:x". -/
theorem c4_module_header :
    (parseYang c4text).moduleHeader.map (fun h => (h.moduleName, h.ns)) =
      some ("foo".toList, none) ∧
    (parseYang c4textMultiline).moduleHeader.map (fun h => (h.moduleName, h.ns)) =
      some ("foo".toList, some "urn:x".toList) := by
  exact ⟨rfl, rfl⟩

/-! ### C9: keyOrderInvalid -/

/-- Source Jexl helper
`keyOrderInvalid(lst) = lst.key.some((k,i) => lst.children[i] !== k)`. -/
def keyOrderInvalid (lst : ListNode) : Bool :=
  lst.key.enum.any fun p => lst.children[p.1]? != some p.2

/-- A list node with the given key and child names (other fields are
irrelevant to `keyOrderInvalid`). -/
def mkListNode (key children : List String) : ListNode :=
  { line := 0
    range := { start := { line := 0, character := 0 }, stop := { line := 0, character := 0 } }
    key := key.map String.toList
    children := children.map String.toList
    afterLines := [] }

/-- C9: `keyOrderInvalid` is true exactly when some index of the key
list carries a child name (possibly missing) different from the key name
at that same position — positional, not set, comparison.  In particular
key=["a","b"], children=["a","c","b"] gives true (index 1 mismatch) and
key=["a","b"], children=["a","b","c"] gives false. -/
theorem c9_keyOrderInvalid_positional :
    (∀ lst : ListNode, keyOrderInvalid lst = true ↔
      ∃ i : Nat, ∃ h : i < lst.key.length, lst.children[i]? ≠ some (lst.key[i])) ∧
    keyOrderInvalid (mkListNode ["a", "b"] ["a", "c", "b"]) = true ∧
    keyOrderInvalid (mkListNode ["a", "b"] ["a", "b", "c"]) = false := by
  refine ⟨fun lst => ?_, by decide, by decide⟩
  rw [keyOrderInvalid, List.any_eq_true]
  constructor
  · rintro ⟨⟨i, x⟩, hmem, hp⟩
    rw [List.mk_mem_enum_iff_getElem?] at hmem
    obtain ⟨hlt, hx⟩ := List.getElem?_eq_some.mp hmem
    exact ⟨i, hlt, by simpa [hx] using bne_iff_ne.mp hp⟩
  · rintro ⟨i, hlt, hne⟩
    refine ⟨(i, lst.key[i]), List.mk_mem_enum_iff_getElem?.mpr ?_, ?_⟩
    · exact List.getElem?_eq_some.mpr ⟨hlt, rfl⟩
    · exact bne_iff_ne.mpr hne

/-! ### C3/C10: duplicate flags and grouping of the deviations collection -/

/-- Specification-side marking: the first node of a group gets
`duplicate = false`, every later one `duplicate = true`. -/
def markFirstFalse : List DeviationNode → List DeviationNode
  | [] => []
  | a :: rest =>
    { a with duplicate := false } :: rest.map (fun n => { n with duplicate := true })

/-- Specification-side first-occurrence deduplication: `dedupFirstAux
seen l` lists the first occurrences in `l` of values not in `seen`. -/
def dedupFirstAux (seen : List (List Char)) : List (List Char) → List (List Char)
  | [] => []
  | k :: rest =>
    if k ∈ seen then dedupFirstAux seen rest
    else k :: dedupFirstAux (k :: seen) rest

/-- Targets in order of first appearance. -/
def dedupFirst (l : List (List Char)) : List (List Char) := dedupFirstAux [] l

/-- Keys of an insertion-ordered association list. -/
def mapKeys (m : List (List Char × List DeviationNode)) : List (List Char) :=
  m.map Prod.fst

theorem mapGetList_mapPush (m : List (List Char × List DeviationNode)) (k : List Char)
    (n : DeviationNode) (q : List Char) :
    mapGetList (mapPush m k n) q =
      if k = q then mapGetList m q ++ [n] else mapGetList m q := by
  induction m with
  | nil => by_cases h : k = q <;> simp [mapPush, mapGetList, h]
  | cons hd tl ih =>
    obtain ⟨k2, a⟩ := hd
    by_cases h1 : k2 = k
    · rw [← h1]
      by_cases h2 : k2 = q <;> simp [mapPush, mapGetList, h2]
    · simp only [mapPush, if_neg h1]
      by_cases h2 : k2 = q
      · have hkq : ¬ (k = q) := fun hh => h1 (h2.trans hh.symm)
        simp [mapGetList, h2, hkq]
      · simp [mapGetList, h2, ih]

theorem foldl_mapPush_get (L : List DeviationNode) :
    ∀ (m : List (List Char × List DeviationNode)) (k : List Char),
      mapGetList (L.foldl (fun m n => mapPush m n.target n) m) k =
        mapGetList m k ++ L.filter (fun n => decide (n.target = k)) := by
  induction L with
  | nil => intro m k; simp
  | cons n L ih =>
    intro m k
    simp only [List.foldl_cons, ih, mapGetList_mapPush, List.filter_cons]
    by_cases h : n.target = k <;> simp [h, List.append_assoc]

theorem mapKeys_mapPush (m : List (List Char × List DeviationNode)) (k : List Char)
    (n : DeviationNode) :
    mapKeys (mapPush m k n) =
      if k ∈ mapKeys m then mapKeys m else mapKeys m ++ [k] := by
  induction m with
  | nil => simp [mapPush, mapKeys]
  | cons hd tl ih =>
    obtain ⟨k2, a⟩ := hd
    by_cases h1 : k2 = k
    · rw [← h1]
      simp [mapPush, mapKeys]
    · have h1s : ¬ (k = k2) := fun hh => h1 hh.symm
      simp only [mapPush, if_neg h1, mapKeys, List.map_cons]
      by_cases h2 : k ∈ mapKeys tl
      · simp only [mapKeys] at h2 ih
        simp [ih, h2, h1s]
      · simp only [mapKeys] at h2 ih
        simp [ih, h2, h1s]

theorem dedupFirstAux_seen_congr (l : List (List Char)) :
    ∀ (s1 s2 : List (List Char)), (∀ x, x ∈ s1 ↔ x ∈ s2) →
      dedupFirstAux s1 l = dedupFirstAux s2 l := by
  induction l with
  | nil => intro s1 s2 _; rfl
  | cons k rest ih =>
    intro s1 s2 hs
    simp only [dedupFirstAux]
    by_cases h : k ∈ s1
    · rw [if_pos h, if_pos ((hs k).mp h)]
      exact ih s1 s2 hs
    · rw [if_neg h, if_neg (fun hh => h ((hs k).mpr hh))]
      refine congrArg _ (ih _ _ fun x => ?_)
      simp [hs x]

theorem foldl_mapPush_keys (L : List DeviationNode) :
    ∀ (m : List (List Char × List DeviationNode)),
      mapKeys (L.foldl (fun m n => mapPush m n.target n) m) =
        mapKeys m ++ dedupFirstAux (mapKeys m) (L.map (fun n => n.target)) := by
  induction L with
  | nil => intro m; simp [dedupFirstAux]
  | cons n L ih =>
    intro m
    simp only [List.foldl_cons, ih, mapKeys_mapPush, List.map_cons, dedupFirstAux]
    by_cases h : n.target ∈ mapKeys m
    · simp [h]
    · simp only [if_neg h]
      rw [dedupFirstAux_seen_congr (L.map (fun n => n.target))
        (mapKeys m ++ [n.target]) (n.target :: mapKeys m)
        (fun x => by simp [or_comm])]
      simp [List.append_assoc]

theorem mem_dedupFirstAux (l : List (List Char)) :
    ∀ (seen : List (List Char)) (x : List Char),
      x ∈ dedupFirstAux seen l → x ∈ l := by
  induction l with
  | nil => intro seen x h; simp [dedupFirstAux] at h
  | cons k rest ih =>
    intro seen x h
    simp only [dedupFirstAux] at h
    by_cases hk : k ∈ seen
    · rw [if_pos hk] at h
      exact List.mem_cons_of_mem _ (ih seen x h)
    · rw [if_neg hk] at h
      rcases List.mem_cons.mp h with h | h
      · exact h ▸ List.mem_cons_self _ _
      · exact List.mem_cons_of_mem _ (ih _ x h)

theorem dedupFirstAux_nodup_notMem (l : List (List Char)) :
    ∀ (seen : List (List Char)),
      (dedupFirstAux seen l).Nodup ∧ ∀ x ∈ dedupFirstAux seen l, x ∉ seen := by
  induction l with
  | nil => intro seen; simp [dedupFirstAux]
  | cons k rest ih =>
    intro seen
    simp only [dedupFirstAux]
    by_cases hk : k ∈ seen
    · rw [if_pos hk]
      exact ih seen
    · rw [if_neg hk]
      obtain ⟨hnd, hmem⟩ := ih (k :: seen)
      refine ⟨List.nodup_cons.mpr ⟨fun hcontra => ?_, hnd⟩, fun x hx => ?_⟩
      · exact hmem k hcontra (List.mem_cons_self _ _)
      · rcases List.mem_cons.mp hx with h | h
        · exact h ▸ hk
        · exact fun hs => hmem x h (List.mem_cons_of_mem _ hs)

theorem buildDevGroups_keys (L : List DeviationNode) :
    mapKeys (buildDevGroups L) = dedupFirst (L.map (fun n => n.target)) := by
  have h := foldl_mapPush_keys L []
  simpa [buildDevGroups, mapKeys, dedupFirst] using h

theorem buildDevGroups_get (L : List DeviationNode) (k : List Char) :
    mapGetList (buildDevGroups L) k = L.filter (fun n => decide (n.target = k)) := by
  have h := foldl_mapPush_get L [] k
  simpa [buildDevGroups, mapGetList] using h

theorem buildDevGroups_keys_nodup (L : List DeviationNode) :
    (mapKeys (buildDevGroups L)).Nodup := by
  rw [buildDevGroups_keys]
  exact (dedupFirstAux_nodup_notMem _ []).1

theorem mapGetList_of_mem (M : List (List Char × List DeviationNode))
    (hnd : (mapKeys M).Nodup) (k : List Char) (arr : List DeviationNode)
    (hmem : (k, arr) ∈ M) : mapGetList M k = arr := by
  induction M with
  | nil => simp at hmem
  | cons hd tl ih =>
    obtain ⟨k2, a⟩ := hd
    have hnd2 : k2 ∉ mapKeys tl ∧ (mapKeys tl).Nodup := List.nodup_cons.mp hnd
    rcases List.mem_cons.mp hmem with h | h
    · cases h
      simp [mapGetList]
    · have hk : k ∈ mapKeys tl := by
        simp only [mapKeys, List.mem_map]
        exact ⟨(k, arr), h, rfl⟩
      have hne : k2 ≠ k := fun hh => hnd2.1 (hh ▸ hk)
      simp only [mapGetList, if_neg hne]
      exact ih hnd2.2 h

theorem assoc_reconstruct (M : List (List Char × List DeviationNode))
    (hnd : (mapKeys M).Nodup) :
    M = (mapKeys M).map (fun k => (k, mapGetList M k)) := by
  induction M with
  | nil => rfl
  | cons hd tl ih =>
    obtain ⟨k2, a⟩ := hd
    have hnd2 : k2 ∉ mapKeys tl ∧ (mapKeys tl).Nodup := List.nodup_cons.mp hnd
    simp only [mapKeys, List.map_cons]
    congr 1
    · simp [mapGetList]
    · have step : ∀ k ∈ mapKeys tl,
          (k, mapGetList ((k2, a) :: tl) k) = (k, mapGetList tl k) := by
        intro k hk
        have hne : k2 ≠ k := fun hh => hnd2.1 (hh ▸ hk)
        simp [mapGetList, hne]
      calc tl = (mapKeys tl).map (fun k => (k, mapGetList tl k)) := ih hnd2.2
        _ = (mapKeys tl).map (fun k => (k, mapGetList ((k2, a) :: tl) k)) :=
            (List.map_congr_left step).symm

theorem markDup_map_target (arr : List DeviationNode) :
    (markDup arr).map (fun n => n.target) = arr.map (fun n => n.target) := by
  rw [markDup.eq_def]
  split_ifs with h
  · cases arr with
    | nil => rfl
    | cons a rest => simp [List.map_map]
  · rfl

theorem markDup_eq_markFirstFalse (arr : List DeviationNode)
    (h : ∀ n ∈ arr, n.duplicate = false) : markDup arr = markFirstFalse arr := by
  rw [markDup.eq_def]
  cases arr with
  | nil => rfl
  | cons a rest =>
    have ha : ({ a with duplicate := false } : DeviationNode) = a := by
      have := h a (List.mem_cons_self _ _)
      cases a
      simp_all
    cases rest with
    | nil =>
      simp only [List.length_cons, List.length_nil]
      rw [if_neg (by omega)]
      simp [markFirstFalse, ha]
    | cons b rest2 =>
      simp only [List.length_cons]
      rw [if_pos (by omega)]
      simp [markFirstFalse, ha]

theorem scanDeviations_duplicate_false (t : List Char) :
    ∀ n ∈ scanDeviations t, n.duplicate = false := by
  intro n hn
  simp only [scanDeviations, List.mem_map] at hn
  obtain ⟨r, _, rfl⟩ := hn
  rfl

theorem flatten_markDup_filter (M : List (List Char × List DeviationNode))
    (hnd : (mapKeys M).Nodup)
    (hwf : ∀ p ∈ M, ∀ x ∈ p.2, x.target = p.1) (k : List Char) :
    ((M.map (fun kv => markDup kv.2)).flatten).filter (fun n => decide (n.target = k)) =
      markDup (mapGetList M k) := by
  induction M with
  | nil => rfl
  | cons hd tl ih =>
    obtain ⟨k2, arr⟩ := hd
    have hnd2 : k2 ∉ mapKeys tl ∧ (mapKeys tl).Nodup := List.nodup_cons.mp hnd
    have harr : ∀ x ∈ markDup arr, x.target = k2 := by
      intro x hx
      have hxt : x.target ∈ (markDup arr).map (fun n => n.target) :=
        List.mem_map.mpr ⟨x, hx, rfl⟩
      rw [markDup_map_target] at hxt
      obtain ⟨y, hy, hyx⟩ := List.mem_map.mp hxt
      rw [← hyx]
      exact hwf (k2, arr) (List.mem_cons_self _ _) y hy
    have htl : ∀ x ∈ ((tl.map (fun kv => markDup kv.2)).flatten),
        x.target ∈ mapKeys tl := by
      intro x hx
      obtain ⟨l, hl, hxl⟩ := List.mem_flatten.mp hx
      obtain ⟨p, hp, hpl⟩ := List.mem_map.mp hl
      have hxt : x.target ∈ (markDup p.2).map (fun n => n.target) := by
        rw [hpl]; exact List.mem_map.mpr ⟨x, hxl, rfl⟩
      rw [markDup_map_target] at hxt
      obtain ⟨y, hy, hyx⟩ := List.mem_map.mp hxt
      have : x.target = p.1 := by rw [← hyx]; exact hwf p (List.mem_cons_of_mem _ hp) y hy
      rw [this]
      exact List.mem_map.mpr ⟨p, hp, rfl⟩
    simp only [List.map_cons, List.flatten_cons, List.filter_append]
    by_cases hk : k2 = k
    · have h1 : (markDup arr).filter (fun n => decide (n.target = k)) = markDup arr :=
        List.filter_eq_self.mpr fun x hx => by simp [harr x hx, hk]
      have h2 : ((tl.map (fun kv => markDup kv.2)).flatten).filter
          (fun n => decide (n.target = k)) = [] := by
        rw [List.filter_eq_nil_iff]
        intro x hx
        have := htl x hx
        simp only [decide_eq_true_eq]
        intro hc
        rw [hc, ← hk] at this
        exact hnd2.1 (hk ▸ this)
      rw [h1, h2, List.append_nil]
      simp [mapGetList, hk]
    · have h1 : (markDup arr).filter (fun n => decide (n.target = k)) = [] := by
        rw [List.filter_eq_nil_iff]
        intro x hx
        simp only [decide_eq_true_eq]
        intro hc
        exact hk ((harr x hx).symm.trans hc)
      rw [h1, List.nil_append]
      rw [ih hnd2.2 (fun p hp => hwf p (List.mem_cons_of_mem _ hp))]
      simp [mapGetList, hk]

theorem optList_getD (l : List α) : (optList l).getD [] = l := by
  rw [optList]
  split_ifs with h
  · simp [List.isEmpty_iff.mp h]
  · rfl

theorem parseYang_deviations (t : List Char) :
    (parseYang t).deviations.getD [] = parseDeviations t := by
  simp [parseYang, optList_getD]

/-- Booleans for "the list of naturals never decreases". -/
def nondecreasing : List Nat → Bool
  | [] => true
  | [_] => true
  | a :: b :: rest => (a ≤ b : Bool) && nondecreasing (b :: rest)

/-- Three deviation blocks for the same target, in document order. -/
def dev3text : List Char :=
  ("deviation /a:b \x7b deviate add; \x7d\n" ++
   "deviation /a:b \x7b deviate replace; \x7d\n" ++
   "deviation /a:b \x7b deviate delete; \x7d\n").toList

/-- Interleaved targets and imports, one per line: an import of aa, a
deviation of /a, an import of bb, a deviation of /b, a deviation of /a. -/
def devMixText : List Char :=
  ("import aa;\n" ++
   "deviation /a \x7b x; \x7d\n" ++
   "import bb;\n" ++
   "deviation /b \x7b y; \x7d\n" ++
   "deviation /a \x7b z; \x7d\n").toList

/-- C3: in the Ast produced by parse, for every target the deviation
nodes carrying it are the raw document-order (scan-order) nodes of that
target, the first with `duplicate = false` and all later ones with
`duplicate = true` — i.e. the flag is true iff the node is not the
document-order-first holder of its target.  For three same-target blocks
the flags come out [false, true, true]. -/
theorem c3_deviation_duplicate_flags :
    (∀ (t k : List Char),
      ((parseYang t).deviations.getD []).filter (fun n => decide (n.target = k)) =
        markFirstFalse ((scanDeviations t).filter (fun n => decide (n.target = k)))) ∧
    ((parseYang dev3text).deviations.getD []).map (fun n => n.duplicate) =
      [false, true, true] := by
  constructor
  · intro t k
    rw [parseYang_deviations, parseDeviations]
    have hwf : ∀ p ∈ buildDevGroups (scanDeviations t), ∀ x ∈ p.2, x.target = p.1 := by
      intro p hp x hx
      have hget := mapGetList_of_mem _ (buildDevGroups_keys_nodup (scanDeviations t))
        p.1 p.2 (by cases p; exact hp)
      rw [buildDevGroups_get] at hget
      have : x ∈ (scanDeviations t).filter (fun n => decide (n.target = p.1)) :=
        hget ▸ hx
      simpa using List.of_mem_filter this
    rw [flatten_markDup_filter _ (buildDevGroups_keys_nodup _) hwf k,
      buildDevGroups_get]
    exact markDup_eq_markFirstFalse _
      (fun n hn => scanDeviations_duplicate_false t n (List.mem_of_mem_filter hn))
  · rfl

/-- C10: the deviations collection of the parsed Ast is grouped by
target: the targets appear in order of first occurrence
(`dedupFirst` of the raw scan's target sequence) and each target
contributes its document-order occurrences consecutively (first
unflagged, rest flagged).  On interleaved targets /a, /b, /a the
collection is [/a line 1, /a line 4, /b line 3] — not in document order —
while the imports collection of the same text stays in document order. -/
theorem c10_deviations_grouped_by_target :
    (∀ t : List Char,
      (parseYang t).deviations.getD [] =
        ((dedupFirst ((scanDeviations t).map (fun n => n.target))).map
          (fun k => markFirstFalse
            ((scanDeviations t).filter (fun n => decide (n.target = k))))).flatten) ∧
    (parseDeviations devMixText).map (fun n => (n.target, n.range.start.line)) =
      [("/a".toList, 1), ("/a".toList, 4), ("/b".toList, 3)] ∧
    nondecreasing ((parseDeviations devMixText).map (fun n => n.range.start.line)) =
      false ∧
    (scanImports devMixText).map (fun n => n.range.start.line) = [0, 2] ∧
    nondecreasing ((scanImports devMixText).map (fun n => n.range.start.line)) =
      true := by
  refine ⟨fun t => ?_, by rfl, by rfl, by rfl, by rfl⟩
  rw [parseYang_deviations]
  have hM := assoc_reconstruct (buildDevGroups (scanDeviations t))
    (buildDevGroups_keys_nodup _)
  calc parseDeviations t
      = ((buildDevGroups (scanDeviations t)).map (fun kv => markDup kv.2)).flatten := rfl
    _ = (((mapKeys (buildDevGroups (scanDeviations t))).map
          (fun k => (k, mapGetList (buildDevGroups (scanDeviations t)) k))).map
          (fun kv => markDup kv.2)).flatten :=
        congrArg (fun z => (z.map (fun kv => markDup kv.2)).flatten) hM
    _ = ((mapKeys (buildDevGroups (scanDeviations t))).map
          (fun k => markDup (mapGetList (buildDevGroups (scanDeviations t)) k))).flatten := by
        rw [List.map_map]; rfl
    _ = ((dedupFirst ((scanDeviations t).map (fun n => n.target))).map
          (fun k => markFirstFalse
            ((scanDeviations t).filter (fun n => decide (n.target = k))))).flatten := by
        rw [buildDevGroups_keys]
        congr 1
        apply List.map_congr_left
        intro k _
        rw [buildDevGroups_get]
        exact markDup_eq_markFirstFalse _
          (fun n hn => scanDeviations_duplicate_false t n (List.mem_of_mem_filter hn))

/-! ### Rule engine (source `ruleEngine.ts`) -/

inductive Severity where
  | error
  | warning
  | info
deriving DecidableEq, Repr

inductive DiagnosticSeverity where
  | Error
  | Warning
  | Information
deriving DecidableEq, Repr

/-- The 15 scope tags of `RuleYaml`; the source tag `import` is a Lean
keyword, rendered `importScope`; `module-header` is `moduleHeader`;
`constraint-node` is `constraintNode`. -/
inductive Scope where
  | moduleHeader
  | importScope
  | typedef
  | status
  | list
  | anyxml
  | augment
  | choice
  | container
  | extension
  | feature
  | notification
  | rpc
  | constraintNode
  | deviation
deriving DecidableEq, Repr

structure RuleYaml where
  id : List Char
  description : List Char
  severity : Severity
  scope : Scope
  when : List Char
deriving DecidableEq, Repr

/-- The scope-named binding added to the evaluation context for the
current node (`{...ctx, import: n}` etc.); the module-header scope
evaluates on the bare context. -/
inductive NodeBinding where
  | noBinding
  | importNode (n : ImportNode)
  | typedefNode (n : TypedefNode)
  | statusNode (n : StatusNode)
  | listNode (n : ListNode)
  | constraintNodeB (n : ConstraintNode)
  | deviationNode (n : DeviationNode)
  | blockNode (n : BlockNode)
deriving DecidableEq, Repr

/-- A compiled Jexl expression, abstracted as a function of the context:
the Ast plus the per-node binding.  `Except.error ()` models `evalSync`
throwing. -/
def Expr : Type := Ast → NodeBinding → Except Unit Bool

structure Compiled where
  rule : RuleYaml
  expr : Expr

structure Diagnostic where
  range : Range
  message : List Char
  severity : DiagnosticSeverity
  source : List Char
  data : Option (List Char)
deriving DecidableEq, Repr

/-- The source's severity translation in `push`. -/
def severityToDiag : Severity → DiagnosticSeverity
  | .error => .Error
  | .warning => .Warning
  | .info => .Information

/-- The source's `push` helper: one diagnostic at the node's range;
`data` carries the deviation scope's `{groupId: target}` payload,
modelled as the target. -/
def mkDiag (rule : RuleYaml) (range : Range) (extra : Option (List Char)) : Diagnostic :=
  { range := range
    message := rule.description
    severity := severityToDiag rule.severity
    source := "yang-lint:".toList ++ rule.id
    data := extra }

/-- Generic-scope dispatch: blocks filtered by keyword equality. -/
def blockItems (ast : Ast) (kw : List Char) :
    List (NodeBinding × Range × Option (List Char)) :=
  ((ast.blocks.getD []).filter (fun b => decide (b.keyword = kw))).map
    (fun b => (NodeBinding.blockNode b, b.range, none))

/-- The candidate nodes of a rule's scope with their binding, range, and
diagnostic payload, in the source's switch order: module header is a
0/1-element scope, the eight generic keywords go through the block
filter, every other scope maps to its Ast field. -/
def scopeItems (rule : RuleYaml) (ast : Ast) :
    List (NodeBinding × Range × Option (List Char)) :=
  match rule.scope with
  | .moduleHeader => ast.moduleHeader.toList.map (fun mh => (NodeBinding.noBinding, mh.range, none))
  | .importScope => (ast.imports.getD []).map (fun n => (NodeBinding.importNode n, n.range, none))
  | .typedef => (ast.typedefs.getD []).map (fun n => (NodeBinding.typedefNode n, n.range, none))
  | .status => (ast.statuses.getD []).map (fun n => (NodeBinding.statusNode n, n.range, none))
  | .list => (ast.lists.getD []).map (fun n => (NodeBinding.listNode n, n.range, none))
  | .constraintNode =>
    (ast.constraintNodes.getD []).map (fun n => (NodeBinding.constraintNodeB n, n.range, none))
  | .deviation =>
    (ast.deviations.getD []).map (fun n => (NodeBinding.deviationNode n, n.range, some n.target))
  | .anyxml => blockItems ast "anyxml".toList
  | .augment => blockItems ast "augment".toList
  | .choice => blockItems ast "choice".toList
  | .container => blockItems ast "container".toList
  | .extension => blockItems ast "extension".toList
  | .feature => blockItems ast "feature".toList
  | .notification => blockItems ast "notification".toList
  | .rpc => blockItems ast "rpc".toList

/-- One rule's forEach: evaluate the predicate on each candidate node in
collection order; a truthy result pushes a diagnostic onto `out`; a
thrown evaluation (`Except.error`) propagates — the source has no
try/catch around `expr.evalSync`. -/
def evalItems (expr : Expr) (rule : RuleYaml) (ast : Ast)
    (items : List (NodeBinding × Range × Option (List Char)))
    (out : List Diagnostic) : Except Unit (List Diagnostic) :=
  items.foldlM (fun acc it => do
    let b ← expr ast it.1
    pure (if b then acc ++ [mkDiag rule it.2.1 it.2.2] else acc)) out

/-- One iteration of the source's `for(const {rule,expr} of this.compiled)`. -/
def ruleStep (ast : Ast) (out : List Diagnostic) (c : Compiled) :
    Except Unit (List Diagnostic) :=
  evalItems c.expr c.rule ast (scopeItems c.rule ast) out

/-- Source `validate`: rules in definition order, shared `out` array. -/
def validate (compiled : List Compiled) (ast : Ast) : Except Unit (List Diagnostic) :=
  compiled.foldlM (ruleStep ast) []

/-- The deviation index rebuilt at the start of every `validate` pass
(`deviationMap.clear()` plus the push loop over `ast.deviations`). -/
def buildDeviationIndex (ast : Ast) : List (List Char × List Range) :=
  (ast.deviations.getD []).foldl (fun m d => mapPush m d.target d.range) []

/-- A rule document: `(ruleDoc as any).rules`. -/
structure RuleDoc where
  rules : List RuleYaml

/-- Source `reload`, with its effects abstracted: `readResult` is the
outcome of reading and YAML-parsing the rule file (exceptions caught by
the source's try/catch), `schemaValid` is the Ajv schema check, and
`compileExpr` is `JexlLib.compile` (which may throw, also caught).  On
every failure path the source sets `this.compiled = []`.  The
host-visible error message is an IO effect outside this model. -/
def reload (readResult : Except (List Char) RuleDoc)
    (schemaValid : RuleDoc → Bool)
    (compileExpr : List Char → Except (List Char) Expr) : List Compiled :=
  match readResult with
  | .error _ => []
  | .ok doc =>
    if schemaValid doc then
      match doc.rules.mapM (fun r => (compileExpr r.when).map
          (fun e => ({ rule := r, expr := e } : Compiled))) with
      | .error _ => []
      | .ok cs => cs
    else []

/-! ### C1, C2, C7: validate and reload behaviour -/

theorem evalItems_error (expr : Expr) (rule : RuleYaml) (ast : Ast) :
    ∀ (items : List (NodeBinding × Range × Option (List Char)))
      (out : List Diagnostic),
      (∃ it ∈ items, expr ast it.1 = Except.error ()) →
      evalItems expr rule ast items out = Except.error () := by
  intro items
  induction items with
  | nil => intro out h; simp at h
  | cons it its ih =>
    intro out h
    rw [evalItems, List.foldlM_cons]
    cases hev : expr ast it.1 with
    | error e => cases e; rfl
    | ok b =>
      rcases h with ⟨w, hw, hwe⟩
      rcases List.mem_cons.mp hw with h1 | h1
      · rw [h1] at hwe; rw [hwe] at hev; cases hev
      · simpa [Except.bind, hev] using ih _ ⟨w, h1, hwe⟩

theorem foldlM_ruleStep_error (ast : Ast) :
    ∀ (compiled : List Compiled) (acc : List Diagnostic),
      (∃ c ∈ compiled, ∃ it ∈ scopeItems c.rule ast, c.expr ast it.1 = Except.error ()) →
      compiled.foldlM (ruleStep ast) acc = Except.error () := by
  intro compiled
  induction compiled with
  | nil => intro acc h; simp at h
  | cons c rest ih =>
    intro acc h
    rw [List.foldlM_cons]
    rcases h with ⟨w, hw, hit⟩
    rcases List.mem_cons.mp hw with h1 | h1
    · rw [h1] at hit
      rw [show ruleStep ast acc c = Except.error () from
        evalItems_error c.expr c.rule ast _ acc hit]
      rfl
    · cases hrs : ruleStep ast acc c with
      | error e => cases e; rfl
      | ok acc2 => simpa [Except.bind, hrs] using ih acc2 ⟨w, h1, hit⟩

/-- C1 (amended): if any rule's compiled predicate throws on any of its
candidate nodes, the whole `validate` pass aborts with that exception —
no diagnostic list is produced at all.  The source loop has no try/catch
around `expr.evalSync`. -/
theorem c1_throwing_predicate_aborts_validate
    (compiled : List Compiled) (ast : Ast)
    (h : ∃ c ∈ compiled, ∃ it ∈ scopeItems c.rule ast,
      c.expr ast it.1 = Except.error ()) :
    validate compiled ast = Except.error () :=
  foldlM_ruleStep_error ast compiled [] h

/-- Concrete two-import Ast for the C1 counterexample. -/
def c1importA : ImportNode :=
  { name := "A".toList, rawLine := "import A;".toList
    range := { start := { line := 0, character := 0 }, stop := { line := 0, character := 9 } } }

def c1importB : ImportNode :=
  { name := "B".toList, rawLine := "import B;".toList
    range := { start := { line := 1, character := 0 }, stop := { line := 1, character := 9 } } }

def c1ast : Ast := { imports := some [c1importA, c1importB] }

/-- A rule whose predicate throws on import A and is truthy elsewhere. -/
def c1ruleThrow : Compiled :=
  { rule := { id := "r1".toList, description := "throws on A".toList
              severity := Severity.warning, scope := Scope.importScope
              when := "boom(import)".toList }
    expr := fun _ b =>
      match b with
      | NodeBinding.importNode n =>
        if n.name = "A".toList then Except.error () else Except.ok true
      | _ => Except.ok true }

/-- A rule that is truthy on every import. -/
def c1ruleTrue : Compiled :=
  { rule := { id := "r2".toList, description := "always true".toList
              severity := Severity.warning, scope := Scope.importScope
              when := "true".toList }
    expr := fun _ _ => Except.ok true }

/-- C1 counterexample: with rule r1 throwing on import A (and truthy on
B) followed by the always-truthy rule r2, the claim predicts a
diagnostic list for the pairs (r1,B), (r2,A), (r2,B); the code instead
propagates the exception: `validate` returns the error and no `ok` list
of any content. -/
theorem c1_counterexample :
    validate [c1ruleThrow, c1ruleTrue] c1ast = Except.error () ∧
    ∀ ds : List Diagnostic, validate [c1ruleThrow, c1ruleTrue] c1ast ≠ Except.ok ds := by
  refine ⟨by rfl, fun ds h => ?_⟩
  rw [show validate [c1ruleThrow, c1ruleTrue] c1ast = Except.error () from rfl] at h
  cases h

/-- C1 witness: the amended theorem applied to the concrete rule set:
the existence of the throwing (rule, node) pair is discharged
explicitly, and the pass aborts. -/
theorem c1_throwing_predicate_aborts_validate_witness :
    validate [c1ruleThrow, c1ruleTrue] c1ast = Except.error () :=
  c1_throwing_predicate_aborts_validate [c1ruleThrow, c1ruleTrue] c1ast
    ⟨c1ruleThrow, List.mem_cons_self _ _,
      (NodeBinding.importNode c1importA, c1importA.range, none),
      by simp [scopeItems, c1ast, c1ruleThrow], by rfl⟩

/-- C2: every failed load attempt — read/parse exception, schema
violation, or a compile exception on some rule expression — leaves the
compiled rule set empty, and `validate` with an empty rule set returns
`ok []` on every Ast without throwing.  (The host-visible error message
is an IO effect outside this model.) -/
theorem c2_failed_load_fail_safe :
    (∀ (e : List Char) (sv : RuleDoc → Bool)
       (ce : List Char → Except (List Char) Expr),
       reload (Except.error e) sv ce = []) ∧
    (∀ (doc : RuleDoc) (sv : RuleDoc → Bool)
       (ce : List Char → Except (List Char) Expr),
       sv doc = false → reload (Except.ok doc) sv ce = []) ∧
    (∀ (doc : RuleDoc) (sv : RuleDoc → Bool)
       (ce : List Char → Except (List Char) Expr) (e : List Char),
       doc.rules.mapM (fun r => (ce r.when).map
         (fun ex => ({ rule := r, expr := ex } : Compiled))) = Except.error e →
       reload (Except.ok doc) sv ce = []) ∧
    (∀ ast : Ast, validate [] ast = Except.ok []) := by
  refine ⟨fun e sv ce => rfl, fun doc sv ce hsv => ?_, fun doc sv ce e hce => ?_,
    fun ast => rfl⟩
  · simp [reload, hsv]
  · rw [reload]
    split_ifs with h
    · rw [hce]
    · rfl

/-- A rule document with one rule, used by the C2 witness. -/
def c2doc : RuleDoc :=
  { rules := [{ id := "r".toList, description := "d".toList
                severity := Severity.info, scope := Scope.importScope
                when := "x".toList }] }

/-- C2 witness: the schema-violation branch and the compile-error branch
applied to a concrete document, followed by `validate` on a concrete
Ast. -/
theorem c2_failed_load_fail_safe_witness :
    reload (Except.ok c2doc) (fun _ => false) (fun _ => Except.error []) = [] ∧
    reload (Except.ok c2doc) (fun _ => true) (fun _ => Except.error "bad".toList) = [] ∧
    validate [] c1ast = Except.ok [] := by
  refine ⟨c2_failed_load_fail_safe.2.1 c2doc _ _ rfl,
    c2_failed_load_fail_safe.2.2.1 c2doc _ _ "bad".toList (by rfl),
    c2_failed_load_fail_safe.2.2.2 c1ast⟩

/-- Per-rule diagnostics on the success path: candidate nodes in
collection order, keeping one diagnostic per truthy evaluation. -/
def specRuleDiags (c : Compiled) (ast : Ast) : List Diagnostic :=
  (scopeItems c.rule ast).filterMap fun it =>
    match c.expr ast it.1 with
    | Except.ok true => some (mkDiag c.rule it.2.1 it.2.2)
    | _ => none

theorem evalItems_ok (expr : Expr) (rule : RuleYaml) (ast : Ast) :
    ∀ (items : List (NodeBinding × Range × Option (List Char)))
      (out res : List Diagnostic),
      evalItems expr rule ast items out = Except.ok res →
      res = out ++ items.filterMap (fun it =>
        match expr ast it.1 with
        | Except.ok true => some (mkDiag rule it.2.1 it.2.2)
        | _ => none) := by
  intro items
  induction items with
  | nil =>
    intro out res h
    rw [evalItems, List.foldlM_nil] at h
    have h2 : out = res := Except.ok.inj h
    simp [h2]
  | cons it its ih =>
    intro out res h
    rw [evalItems, List.foldlM_cons] at h
    cases hev : expr ast it.1 with
    | error e => rw [hev] at h; cases h
    | ok b =>
      rw [hev] at h
      cases b with
      | true =>
        have := ih (out ++ [mkDiag rule it.2.1 it.2.2]) res (by simpa [evalItems] using h)
        simp [this, List.filter_cons, hev, List.append_assoc]
      | false =>
        have := ih out res (by simpa [evalItems] using h)
        simp [this, List.filter_cons, hev]

theorem foldlM_ruleStep_ok (ast : Ast) :
    ∀ (compiled : List Compiled) (acc ds : List Diagnostic),
      compiled.foldlM (ruleStep ast) acc = Except.ok ds →
      ds = acc ++ compiled.flatMap (fun c => specRuleDiags c ast) := by
  intro compiled
  induction compiled with
  | nil =>
    intro acc ds h
    rw [List.foldlM_nil] at h
    have h2 : acc = ds := Except.ok.inj h
    simp [h2]
  | cons c rest ih =>
    intro acc ds h
    rw [List.foldlM_cons] at h
    cases hrs : ruleStep ast acc c with
    | error e => rw [hrs] at h; cases h
    | ok acc2 =>
      rw [hrs] at h
      have h2 := ih acc2 ds (by simpa using h)
      have h3 := evalItems_ok c.expr c.rule ast _ acc acc2 hrs
      rw [h2, h3]
      simp [specRuleDiags, List.append_assoc]

/-- Concrete imports A and B for the C7 example. -/
def c7importA : ImportNode :=
  { name := "A".toList, rawLine := "import A;".toList
    range := { start := { line := 0, character := 0 }, stop := { line := 0, character := 9 } } }

def c7importB : ImportNode :=
  { name := "B".toList, rawLine := "import B;".toList
    range := { start := { line := 1, character := 0 }, stop := { line := 1, character := 9 } } }

def c7ast : Ast := { imports := some [c7importA, c7importB] }

def c7rule1 : Compiled :=
  { rule := { id := "r1".toList, description := "rule one".toList
              severity := Severity.warning, scope := Scope.importScope
              when := "true".toList }
    expr := fun _ _ => Except.ok true }

def c7rule2 : Compiled :=
  { rule := { id := "r2".toList, description := "rule two".toList
              severity := Severity.warning, scope := Scope.importScope
              when := "true".toList }
    expr := fun _ _ => Except.ok true }

/-- C7: a successful `validate` emits, in order, each rule's diagnostics
(rule-definition order), and within one rule one diagnostic per truthy
candidate node in collection order; diagnostics are not globally sorted
by position.  Two always-truthy import-scoped rules over imports A
(line 0) and B (line 1) give [R1×A, R1×B, R2×A, R2×B], whose source
lines 0,1,0,1 are not nondecreasing. -/
theorem c7_diagnostic_order
    (compiled : List Compiled) (ast : Ast) (ds : List Diagnostic)
    (h : validate compiled ast = Except.ok ds) :
    ds = compiled.flatMap (fun c => specRuleDiags c ast) ∧
    validate [c7rule1, c7rule2] c7ast = Except.ok
      [mkDiag c7rule1.rule c7importA.range none,
       mkDiag c7rule1.rule c7importB.range none,
       mkDiag c7rule2.rule c7importA.range none,
       mkDiag c7rule2.rule c7importB.range none] ∧
    nondecreasing ([mkDiag c7rule1.rule c7importA.range none,
       mkDiag c7rule1.rule c7importB.range none,
       mkDiag c7rule2.rule c7importA.range none,
       mkDiag c7rule2.rule c7importB.range none].map
      (fun d => d.range.start.line)) = false := by
  exact ⟨foldlM_ruleStep_ok ast compiled [] ds h, by rfl, by rfl⟩

/-- C7 witness: the order theorem applied to the concrete rule set and
Ast. -/
theorem c7_diagnostic_order_witness :
    [mkDiag c7rule1.rule c7importA.range none,
     mkDiag c7rule1.rule c7importB.range none,
     mkDiag c7rule2.rule c7importA.range none,
     mkDiag c7rule2.rule c7importB.range none] =
      [c7rule1, c7rule2].flatMap (fun c => specRuleDiags c c7ast) :=
  (c7_diagnostic_order [c7rule1, c7rule2] c7ast _ (by rfl)).1

/-! ### Quick-fix synthesizer (source `providers/quickfix.ts`) -/

structure TextEdit where
  range : Range
  newText : List Char
deriving DecidableEq, Repr

structure CodeAction where
  title : List Char
  diags : List Diagnostic
  edits : List TextEdit
deriving DecidableEq, Repr

/-- Source `offsetAt`: sum of `line.length + 1` over the first
`pos.line` newline-split lines, plus the character. -/
def offsetAt (t : List Char) (p : Pos) : Nat :=
  ((t.splitOn '\n').take p.line).foldl (fun off l => off + l.length + 1) 0 + p.character

/-- Source `textSlice`. -/
def textSlice (t : List Char) (r : Range) : List Char :=
  sliceIdx t (offsetAt t r.start) (offsetAt t r.stop)

/-- JS `Map.get`: `undefined` when the key is absent. -/
def mapFind? (m : List (List Char × List α)) (k : List Char) : Option (List α) :=
  match m with
  | [] => none
  | (k2, a) :: rest => if k2 = k then some a else mapFind? rest k

/-- The sort comparator
`(a.start.line - b.start.line) || (a.start.character - b.start.character)`:
ascending by line, then by character. -/
def devLe (a b : Range) : Bool :=
  a.start.line < b.start.line ∨
    (a.start.line = b.start.line ∧ a.start.character ≤ b.start.character)

/-- JS `indexOf` (character): -1 when absent. -/
def jsIndexOfChar (l : List Char) (c : Char) : Int :=
  match l.findIdx? (fun x => x = c) with
  | some i => (i : Int)
  | none => -1

/-- JS `lastIndexOf` (character): -1 when absent. -/
def jsLastIndexOfChar (l : List Char) (c : Char) : Int :=
  match l.reverse.findIdx? (fun x => x = c) with
  | some i => (l.length : Int) - 1 - (i : Int)
  | none => -1

/-- JS `slice` with signed indices: negative counts from the end, then
both are clamped to [0, length]. -/
def jsSliceInt (l : List Char) (s e : Int) : List Char :=
  let n : Int := l.length
  let s2 := if s < 0 then max (n + s) 0 else min s n
  let e2 := if e < 0 then max (n + e) 0 else min e n
  if s2 < e2 then (l.drop s2.toNat).take (e2 - s2).toNat else []

/-- `body.replace(/^\n+|\s+$/g, '')`: strip the leading newline run and
the maximal all-whitespace suffix. -/
def stripBody (b : List Char) : List Char :=
  ((b.dropWhile (fun c => c = '\n')).reverse.dropWhile isJsWs).reverse

/-- Steps 3 of the source loop over one occurrence: slice strictly
between the outermost braces, strip, split into lines, un-indent by the
minimum leading width over non-blank lines (`Math.min` of an empty list
is Infinity, under which `l.slice(Infinity)` is empty), re-prefix with
the child indent, re-join. -/
def mergeBody (innerIndent : List Char) (raw : List Char) : List Char :=
  let openI := jsIndexOfChar raw lbrace
  let close := jsLastIndexOfChar raw rbrace
  let body := jsSliceInt raw (openI + 1) close
  let lines := (stripBody body).splitOn '\n'
  let minIndent := ((lines.filter (fun l => decide (jsTrim l ≠ []))).map
    (fun l => (l.takeWhile isSpaceTab).length)).min?
  let mapped :=
    match minIndent with
    | none => lines.map (fun _ => innerIndent)
    | some w => lines.map (fun (l : List Char) => innerIndent ++ l.drop w)
  (mapped.intersperse ['\n']).flatten

/-- The indentation prefix of the line holding offset-position
`(line, 0)`; `indexOf('\n', off) === -1` maps to the text length as in
the source. -/
def baseIndentAt (text : List Char) (line : Nat) : List Char :=
  let lineStartOff := offsetAt text { line := line, character := 0 }
  let lineEndOff := indexOfFrom text '\n' text.length lineStartOff
  (sliceIdx text lineStartOff lineEndOff).takeWhile isSpaceTab

/-- Source `buildDeviationFix(diag, uri, text)`: the target is the
diagnostic's `groupId` payload; the deviation index is passed
explicitly (the source reads the module-level `deviationMap`). -/
def buildDeviationFix (diag : Diagnostic) (text : List Char)
    (devMap : List (List Char × List Range)) : Option CodeAction :=
  let target := diag.data.getD []
  match mapFind? devMap target with
  | none => none
  | some ranges =>
    if ranges.length < 2 then none
    else
      match ranges.mergeSort devLe with
      | [] => none
      | s0 :: srest =>
        let baseIndent := baseIndentAt text s0.start.line
        let innerIndent := baseIndent ++ "  ".toList
        let bodies := (s0 :: srest).map (fun r => mergeBody innerIndent (textSlice text r))
        let merged := baseIndent ++ "deviation ".toList ++ target ++ " \x7b\n".toList ++
          (bodies.intersperse "\n\n".toList).flatten ++
          "\n".toList ++ baseIndent ++ "\x7d".toList
        some { title := "Merge duplicate deviations".toList
               diags := [diag]
               edits := { range := s0, newText := merged } ::
                 srest.map (fun r => ({ range := r, newText := [] } : TextEdit)) }

theorem devLe_trans (a b c : Range) (h1 : devLe a b = true) (h2 : devLe b c = true) :
    devLe a c = true := by
  simp only [devLe, decide_eq_true_eq] at *
  omega

theorem devLe_total (a b : Range) : (devLe a b || devLe b a) = true := by
  simp only [devLe, Bool.or_eq_true, decide_eq_true_eq]
  omega

/-- C8: with the group for the diagnostic's target absent or shorter
than 2 the synthesizer returns nothing; with 2 or more occurrences it
returns exactly one action whose first edit replaces the
document-order-least occurrence's full range with a merged
`deviation <target> { … }` block (base-indented) and whose remaining
edits are empty-replacement deletions of every other occurrence's full
range. -/
theorem c8_quickfix_edits (diag : Diagnostic) (text : List Char)
    (devMap : List (List Char × List Range)) :
    (mapFind? devMap (diag.data.getD []) = none →
      buildDeviationFix diag text devMap = none) ∧
    (∀ ranges, mapFind? devMap (diag.data.getD []) = some ranges →
      ranges.length < 2 → buildDeviationFix diag text devMap = none) ∧
    (∀ ranges, mapFind? devMap (diag.data.getD []) = some ranges →
      2 ≤ ranges.length →
      ∃ act s0 srest inner,
        buildDeviationFix diag text devMap = some act ∧
        ranges.mergeSort devLe = s0 :: srest ∧
        act.title = "Merge duplicate deviations".toList ∧
        act.edits =
          { range := s0
            newText := baseIndentAt text s0.start.line ++ "deviation ".toList ++
              (diag.data.getD []) ++ " \x7b\n".toList ++ inner ++
              "\n".toList ++ baseIndentAt text s0.start.line ++ "\x7d".toList } ::
            srest.map (fun r => ({ range := r, newText := [] } : TextEdit)) ∧
        (s0 :: srest).Perm ranges ∧
        (∀ r ∈ ranges, devLe s0 r = true)) := by
  refine ⟨fun h => ?_, fun ranges h hlt => ?_, fun ranges h hge => ?_⟩
  · rw [buildDeviationFix, h]
  · rw [buildDeviationFix, h]
    simp [hlt]
  · have hperm := ranges.mergeSort_perm devLe
    have hlen : (ranges.mergeSort devLe).length = ranges.length := hperm.length_eq
    cases hms : ranges.mergeSort devLe with
    | nil => rw [hms] at hlen; simp at hlen; omega
    | cons s0 srest =>
      have hbuild : buildDeviationFix diag text devMap = some
          { title := "Merge duplicate deviations".toList
            diags := [diag]
            edits := { range := s0
                       newText := baseIndentAt text s0.start.line ++ "deviation ".toList ++
                         (diag.data.getD []) ++ " \x7b\n".toList ++
                         (((s0 :: srest).map (fun r => mergeBody
                           (baseIndentAt text s0.start.line ++ "  ".toList)
                           (textSlice text r))).intersperse "\n\n".toList).flatten ++
                         "\n".toList ++ baseIndentAt text s0.start.line ++ "\x7d".toList } ::
              srest.map (fun r => ({ range := r, newText := [] } : TextEdit)) } := by
        rw [buildDeviationFix.eq_def]
        dsimp only
        rw [h]
        dsimp only
        rw [if_neg (by omega : ¬ ranges.length < 2), hms]
      refine ⟨_, s0, srest,
        (((s0 :: srest).map (fun r => mergeBody (baseIndentAt text s0.start.line ++ "  ".toList)
          (textSlice text r))).intersperse "\n\n".toList).flatten,
        hbuild, rfl, rfl, rfl, ?_, ?_⟩
      · exact hms ▸ hperm
      · intro r hr
        have hsorted := List.sorted_mergeSort devLe_trans devLe_total ranges
        rw [hms] at hsorted
        have hr2 : r ∈ s0 :: srest := (hms ▸ hperm).mem_iff.mpr hr
        rcases List.mem_cons.mp hr2 with h1 | h1
        · rw [h1]
          simp [devLe]
        · exact List.rel_of_pairwise_cons hsorted h1

/-- Concrete data for the C8 witness: two one-line deviation blocks for
target `/x`. -/
def c8text : List Char :=
  ("deviation /x \x7b a; \x7d\n" ++ "deviation /x \x7b b; \x7d\n").toList

def c8range1 : Range :=
  { start := { line := 0, character := 0 }, stop := { line := 0, character := 19 } }

def c8range2 : Range :=
  { start := { line := 1, character := 0 }, stop := { line := 1, character := 19 } }

def c8diag : Diagnostic :=
  { range := c8range1
    message := "dup".toList
    severity := DiagnosticSeverity.Warning
    source := "yang-lint:deviation-unique-target".toList
    data := some "/x".toList }

def c8map : List (List Char × List Range) := [("/x".toList, [c8range1, c8range2])]

/-- C8 witness: the ≥2-occurrences branch of the theorem applied to the
concrete two-occurrence index produces an action. -/
theorem c8_quickfix_edits_witness :
    (buildDeviationFix c8diag c8text c8map).isSome = true := by
  obtain ⟨act, s0, srest, inner, hact, _⟩ :=
    (c8_quickfix_edits c8diag c8text c8map).2.2 [c8range1, c8range2] (by rfl) (by decide)
  rw [hact]
  rfl

end YangLint
